import Mathlib

/-!
Shallow embedding of `src/Brute_Force_RCS/evaluation_utils.py`.

Python `dict[str, float]` probability distributions are modelled as
association lists over `Key = List Char` with rational values and
no duplicate keys (Python dicts cannot hold duplicate keys).
Python `raise ValueError` is modelled with `Except String`.
-/

/-- Basis-state bitstrings, modelling Python `str` keys. -/
abbrev Key := List Char

/-- A probability distribution, modelling a Python `dict[str, float]`:
an association list of key/value pairs with pairwise distinct keys. -/
structure PDist where
  entries : List (Key × ℚ)
  nodupKeys : (entries.map Prod.fst).Nodup

/-- The set of basis-state keys of a distribution, modelling Python
`set(distribution.keys())`. -/
def PDist.keys (d : PDist) : Finset Key :=
  (d.entries.map Prod.fst).toFinset

/-- Dictionary access with default 0, modelling Python
`distribution.get(key, 0)`; it agrees with `distribution[key]` whenever
`key` is present. -/
def PDist.getv (d : PDist) (k : Key) : ℚ :=
  (d.entries.lookup k).getD 0

/-- Sum of all values of a distribution, modelling Python
`sum(distribution.values())`. -/
def PDist.total (d : PDist) : ℚ :=
  (d.entries.map Prod.snd).sum

/-- Embedding of `total_variation_distance` (evaluation_utils.py lines
106-128): raises `ValueError` when the two key sets differ, otherwise
returns `0.5 * sum(np.abs(distribution1[key] - distribution2[key]) for key
in keys1)`; the Python iteration is over the unordered set `keys1`, which
the `Finset.sum` models. -/
def total_variation_distance (distribution1 distribution2 : PDist) : Except String ℚ :=
  if distribution1.keys ≠ distribution2.keys then
    .error "Distributions must have the same basis states."
  else
    .ok ((1 / 2) * ∑ k ∈ distribution1.keys, |distribution1.getv k - distribution2.getv k|)

/-- Embedding of `compute_xeb` (evaluation_utils.py lines 164-195): raises
`ValueError` when the two key sets differ, otherwise returns
`(2 ** num_qubits) * sum(true[state] * empirical.get(state, 0) for state in
true.keys()) - 1`; the iteration over the dict `true_distribution.keys()`
follows the entry list order. -/
def compute_xeb (empirical_distribution true_distribution : PDist) (num_qubits : ℕ) :
    Except String ℚ :=
  if empirical_distribution.keys ≠ true_distribution.keys then
    .error "Distributions must have the same basis states."
  else
    let xeb_sum := (true_distribution.entries.map
      (fun p => p.2 * empirical_distribution.getv p.1)).sum
    .ok ((2 ^ num_qubits : ℚ) * xeb_sum - 1)

/-- Tolerance test modelling `np.isclose(a, b)` with numpy's default
tolerances `rtol = 1e-5`, `atol = 1e-8`:
`|a - b| <= atol + rtol * |b|`. -/
def npIsclose (a b : ℚ) : Bool :=
  |a - b| ≤ 1 / 100000000 + (1 / 100000) * |b|

/-- Embedding of `check_distribution_normalization` (evaluation_utils.py
lines 56-73): sums the values and tests `np.isclose(total, 1.0)`; returns
the boolean together with the list of printed warning lines. -/
def check_distribution_normalization (distribution : PDist) : Bool × List String :=
  let total_probability := distribution.total
  if npIsclose total_probability 1 then
    (true, [])
  else
    (false, ["Warning: Total probability is " ++ toString total_probability ++ ", not 1.0"])

/-- Big-endian binary digits of a positive number, most significant first
(empty for 0): the digit list Python's `format(i, 'b')` emits for `i >= 1`. -/
def binGo : ℕ → List Char
  | 0 => []
  | n + 1 => binGo ((n + 1) / 2) ++ [if (n + 1) % 2 = 1 then '1' else '0']
decreasing_by exact Nat.div_lt_self (Nat.succ_pos n) (by norm_num)

/-- Embedding of Python `format(i, '0' + str(width) + 'b')` (evaluation_utils.py
line 44): the binary representation of `i` (the single digit "0" for zero),
left-padded with '0' up to the given minimum width, never truncated. -/
def pyFormatBin (width i : ℕ) : Key :=
  let raw := if i = 0 then ['0'] else binGo i
  List.replicate (width - raw.length) '0' ++ raw

/-- Fixed-width big-endian binary string: exactly `n` characters holding the
`n` low bits of `i`. Reference form used to state theorems about
`pyFormatBin`. -/
def toBin : ℕ → ℕ → Key
  | 0, _ => []
  | n + 1, i => toBin n (i / 2) ++ [if i % 2 = 1 then '1' else '0']

/-- Modelled from the spec: a quantum circuit is opaque to this module
(spec section 3); it carries a qubit count, final measurement operations
(one entry per measured qubit), and the exact statevector probabilities of
its measurement-free part, supplied by the external simulation primitive
(spec section 6) and therefore non-negative and summing to 1 (glossary:
a statevector is a complete normalized amplitude description). -/
structure Circuit where
  num_qubits : ℕ
  measured : List ℕ
  svprobs : Fin (2 ^ num_qubits) → ℚ
  svprobs_nonneg : ∀ i, 0 ≤ svprobs i
  svprobs_sum_one : ∑ i, svprobs i = 1

/-- Embedding of qiskit `QuantumCircuit.remove_final_measurements` as used
at evaluation_utils.py line 34: deletes the final measurement operations,
leaving gates and statevector untouched. -/
def remove_final_measurements (qc : Circuit) : Circuit :=
  { qc with measured := [] }

/-- Embedding of qiskit `QuantumCircuit.measure_all` as used by the drivers:
adds a final measurement on every qubit. -/
def measure_all (qc : Circuit) : Circuit :=
  { qc with measured := List.range qc.num_qubits }

/-- Entry list built by `calculate_true_distribution` lines 40-50: basis
state `format(i, f'0nb')` paired with `probabilities[i]`, for
`i in range(2 ** num_qubits)` in counting order. -/
def trueEntries (qc : Circuit) : List (Key × ℚ) :=
  (List.finRange (2 ^ qc.num_qubits)).map
    (fun i => (pyFormatBin qc.num_qubits i.val, qc.svprobs i))

/-- Every fixed-width binary string has exactly the requested width. -/
theorem toBin_length (n : ℕ) : ∀ i, (toBin n i).length = n := by
  induction n with
  | zero => intro i; rfl
  | succ n ih => intro i; simp [toBin, ih]

/-- The fixed-width binary string of 0 is all zero characters. -/
theorem toBin_zero (n : ℕ) : toBin n 0 = List.replicate n '0' := by
  induction n with
  | zero => rfl
  | succ n ih => simp [toBin, Nat.zero_div, ih, List.replicate_succ']

/-- Unfolding equation of `binGo` on positive input. -/
theorem binGo_eq (i : ℕ) (h : 0 < i) :
    binGo i = binGo (i / 2) ++ [if i % 2 = 1 then '1' else '0'] := by
  obtain ⟨n, rfl⟩ := Nat.exists_eq_succ_of_ne_zero (Nat.pos_iff_ne_zero.mp h)
  rw [binGo]

/-- For `0 < i < 2 ^ n` the raw binary digits of `i` fit in width `n` and
left-padding them with zero characters to width `n` gives the fixed-width
binary string. -/
theorem binGo_toBin (n : ℕ) : ∀ i, i < 2 ^ n → 0 < i →
    (binGo i).length ≤ n ∧
      toBin n i = List.replicate (n - (binGo i).length) '0' ++ binGo i := by
  induction n with
  | zero => intro i hi hpos; omega
  | succ n ih =>
    intro i hi hpos
    rw [binGo_eq i hpos]
    by_cases h2 : i / 2 = 0
    · have hone : i = 1 := by omega
      subst hone
      refine ⟨by simp [binGo], ?_⟩
      simp [toBin, binGo, toBin_zero, List.replicate_succ']
    · have hpow : 2 ^ (n + 1) = 2 * 2 ^ n := by ring
      have hlt2 : i / 2 < 2 ^ n := by omega
      obtain ⟨hlen, heq⟩ := ih (i / 2) hlt2 (Nat.pos_of_ne_zero h2)
      refine ⟨by simp; omega, ?_⟩
      rw [toBin, heq, List.append_assoc]
      have hcount : n + 1 - (binGo (i / 2) ++
          [if i % 2 = 1 then '1' else '0']).length = n - (binGo (i / 2)).length := by
        simp
      rw [hcount]

/-- On inputs below `2 ^ n` with positive width, Python zero-padded binary
formatting agrees with the fixed-width binary string. -/
theorem pyFormatBin_eq_toBin (n i : ℕ) (hn : 0 < n) (hi : i < 2 ^ n) :
    pyFormatBin n i = toBin n i := by
  by_cases h : i = 0
  · subst h
    obtain ⟨m, rfl⟩ := Nat.exists_eq_succ_of_ne_zero (Nat.pos_iff_ne_zero.mp hn)
    simp [pyFormatBin, toBin_zero, List.replicate_succ']
  · obtain ⟨hlen, heq⟩ := binGo_toBin n i hi (Nat.pos_of_ne_zero h)
    simp only [pyFormatBin, h, if_false]
    exact heq.symm

/-- Fixed-width binary strings of distinct numbers below `2 ^ n` differ. -/
theorem toBin_injOn (n : ℕ) : ∀ a b, a < 2 ^ n → b < 2 ^ n →
    toBin n a = toBin n b → a = b := by
  induction n with
  | zero => intro a b ha hb _; omega
  | succ n ih =>
    intro a b ha hb h
    simp only [toBin] at h
    obtain ⟨h1, h2⟩ := List.append_inj h (by rw [toBin_length, toBin_length])
    have hpow : 2 ^ (n + 1) = 2 * 2 ^ n := by ring
    have hdiv : a / 2 = b / 2 := ih _ _ (by omega) (by omega) h1
    have hmod : a % 2 = b % 2 := by
      by_cases hA : a % 2 = 1
      · by_cases hB : b % 2 = 1
        · omega
        · simp [hA, hB] at h2
      · by_cases hB : b % 2 = 1
        · simp [hA, hB] at h2
        · omega
    omega

/-- Python zero-padded binary formatting is injective below `2 ^ n`. -/
theorem pyFormatBin_injOn (n a b : ℕ) (ha : a < 2 ^ n) (hb : b < 2 ^ n)
    (h : pyFormatBin n a = pyFormatBin n b) : a = b := by
  rcases Nat.eq_zero_or_pos n with hn | hn
  · subst hn; omega
  · rw [pyFormatBin_eq_toBin n a hn ha, pyFormatBin_eq_toBin n b hn hb] at h
    exact toBin_injOn n a b ha hb h

/-- The basis-state keys produced by the distribution builder are pairwise
distinct. -/
theorem trueEntries_keys_nodup (qc : Circuit) :
    ((trueEntries qc).map Prod.fst).Nodup := by
  rw [trueEntries, List.map_map]
  exact (List.nodup_finRange _).map_on
    (fun x _ y _ h => Fin.ext (pyFormatBin_injOn _ _ _ x.isLt y.isLt h))

/-- Embedding of `calculate_true_distribution` (evaluation_utils.py lines
18-52). The Python function mutates its argument (it strips final
measurements in place) and returns the distribution; the in-place mutation
is modelled by returning the updated circuit alongside the distribution. -/
def calculate_true_distribution (qc : Circuit) : Circuit × PDist :=
  let qc1 := remove_final_measurements qc
  (qc1, ⟨trueEntries qc1, trueEntries_keys_nodup qc1⟩)

/-- Modelled from the spec: the external collaborator interface of the
`circuit_utils` module (spec section 6), whose source is not part of this
module. `random_circuit`, `create_noise_model` and
`generate_emp_distribution` are opaque functions held fixed per environment;
`NM` is the opaque noise-model type. -/
structure Env (NM : Type) where
  random_circuit : ℕ → Option ℕ → Circuit
  create_noise_model : ℚ → NM
  generate_emp_distribution : Circuit → ℕ → NM → Option ℕ → PDist

/-- Embedding of `tvd_truedist_empdist` (evaluation_utils.py lines 131-160):
generate a circuit, compute the true distribution (stripping measurements),
re-add measurements, sample empirically under the requested noise model, and
return the total variation distance. -/
def tvd_truedist_empdist {NM : Type} (env : Env NM) (num_qubits : ℕ)
    (noise_rate : ℚ) (shots : ℕ) (depth : Option ℕ) : Except String ℚ :=
  let qc := env.random_circuit num_qubits depth
  let r := calculate_true_distribution qc
  let qcm := measure_all r.1
  let noise := env.create_noise_model noise_rate
  let noisy_dist := env.generate_emp_distribution qcm shots noise depth
  total_variation_distance noisy_dist r.2

/-- Embedding of `xeb_truedist_empdist_noisy` (evaluation_utils.py lines
198-225): as `tvd_truedist_empdist` but returning the XEB score. -/
def xeb_truedist_empdist_noisy {NM : Type} (env : Env NM) (num_qubits : ℕ)
    (noise_rate : ℚ) (shots : ℕ) (depth : Option ℕ) : Except String ℚ :=
  let qc := env.random_circuit num_qubits depth
  let r := calculate_true_distribution qc
  let qcm := measure_all r.1
  let noise := env.create_noise_model noise_rate
  let noisy_dist := env.generate_emp_distribution qcm shots noise depth
  compute_xeb noisy_dist r.2 num_qubits

set_option linter.unusedVariables false in
/-- Embedding of `xeb_truedist_empdist_ideal` (evaluation_utils.py lines
228-255): like the noisy variant, except the noise model is built with rate
`0.0` (line 250) and the caller-supplied `noise_rate` is never read. -/
def xeb_truedist_empdist_ideal {NM : Type} (env : Env NM) (num_qubits : ℕ)
    (noise_rate : ℚ) (shots : ℕ) (depth : Option ℕ) : Except String ℚ :=
  let qc := env.random_circuit num_qubits depth
  let r := calculate_true_distribution qc
  let qcm := measure_all r.1
  let noise := env.create_noise_model 0
  let noisy_dist := env.generate_emp_distribution qcm shots noise depth
  compute_xeb noisy_dist r.2 num_qubits

/-- Looking up the key at the head of an association list yields its value. -/
theorem lookup_cons_self (k : Key) (v : ℚ) (l : List (Key × ℚ)) :
    ((k, v) :: l).lookup k = some v := by
  simp [List.lookup]

/-- Looking up a key different from the head key skips the head entry. -/
theorem lookup_cons_ne (a k : Key) (v : ℚ) (l : List (Key × ℚ)) (h : a ≠ k) :
    ((k, v) :: l).lookup a = l.lookup a := by
  simp [List.lookup, beq_eq_false_iff_ne.mpr h]

/-- A successful lookup returns a stored pair. -/
theorem mem_of_lookup_eq_some {l : List (Key × ℚ)} {a : Key} {v : ℚ}
    (h : l.lookup a = some v) : (a, v) ∈ l := by
  induction l with
  | nil => simp [List.lookup] at h
  | cons p t ih =>
    rw [List.lookup] at h
    rcases hb : a == p.1 with _ | _
    · rw [hb] at h
      exact List.mem_cons_of_mem _ (ih h)
    · rw [hb] at h
      obtain rfl := eq_of_beq hb
      obtain rfl : p.2 = v := by simpa using h
      exact List.mem_cons_self _ _

/-- Summing any function of key and looked-up value over the key set of a
duplicate-free association list equals summing it along the entry list. -/
theorem sum_over_keys (f : Key → ℚ → ℚ) :
    ∀ l : List (Key × ℚ), (l.map Prod.fst).Nodup →
      ∑ k ∈ (l.map Prod.fst).toFinset, f k ((l.lookup k).getD 0) =
        (l.map (fun p => f p.1 p.2)).sum := by
  intro l
  induction l with
  | nil => simp
  | cons p t ih =>
    intro hnd
    rw [List.map_cons, List.nodup_cons] at hnd
    obtain ⟨hp, ht⟩ := hnd
    have hpf : p.1 ∉ (t.map Prod.fst).toFinset := by
      simpa using hp
    rw [List.map_cons, List.toFinset_cons, Finset.sum_insert hpf]
    have hhead : ((p :: t).lookup p.1).getD 0 = p.2 := by
      rw [show p :: t = (p.1, p.2) :: t from rfl, lookup_cons_self]
      rfl
    have htail : ∀ k ∈ (t.map Prod.fst).toFinset,
        f k (((p :: t).lookup k).getD 0) = f k ((t.lookup k).getD 0) := by
      intro k hk
      have hk1 : k ≠ p.1 := by
        intro hkp
        exact hp (by simpa [hkp] using hk)
      rw [show p :: t = (p.1, p.2) :: t from rfl, lookup_cons_ne _ _ _ _ hk1]
    rw [Finset.sum_congr rfl htail, ih ht, hhead, List.map_cons, List.sum_cons]

/-- The sum of a distribution's values equals the sum of its lookups over
its key set. -/
theorem PDist.total_eq_sum_keys (d : PDist) :
    d.total = ∑ k ∈ d.keys, d.getv k := by
  rw [PDist.total, PDist.keys]
  exact (sum_over_keys (fun _ v => v) d.entries d.nodupKeys).symm

/-- When every stored value is non-negative, every dictionary access with
default 0 is non-negative. -/
theorem PDist.getv_nonneg (d : PDist) (h : ∀ p ∈ d.entries, 0 ≤ p.2)
    (k : Key) : 0 ≤ d.getv k := by
  rw [PDist.getv]
  rcases hl : d.entries.lookup k with _ | v
  · simp
  · simpa using h (k, v) (mem_of_lookup_eq_some hl)

/-- The 1-qubit distribution mapping "0" to 1 and "1" to 0. -/
def distOneQubitPoint : PDist := ⟨[(['0'], 1), (['1'], 0)], by decide⟩

/-- The uniform 2-qubit distribution. -/
def distTwoQubitUniform : PDist :=
  ⟨[(['0', '0'], 1 / 4), (['0', '1'], 1 / 4), (['1', '0'], 1 / 4), (['1', '1'], 1 / 4)],
    by decide⟩

/-- The 2-qubit distribution concentrated entirely on "00". -/
def distTwoQubitPoint00 : PDist :=
  ⟨[(['0', '0'], 1), (['0', '1'], 0), (['1', '0'], 0), (['1', '1'], 0)], by decide⟩

/-- The distribution with a single key "00". -/
def distPair00 : PDist := ⟨[(['0', '0'], 1)], by decide⟩

/-- The distribution with a single key "0". -/
def distSingle0 : PDist := ⟨[(['0'], 1)], by decide⟩

/-- The empty distribution. -/
def distEmpty : PDist := ⟨[], by decide⟩

/-- C1: for every pair of distributions with identical key sets,
`compute_xeb` returns `2 ^ num_qubits` times the sum over all keys of the
true distribution of (true probability times empirical probability, with a
missing empirical entry defaulting to 0), minus 1; in particular the
1-qubit point distribution against itself scores 1, and the 2-qubit uniform
true distribution against an empirical distribution concentrated on "00"
scores 0. -/
theorem compute_xeb_formula_and_examples :
    (∀ (emp tru : PDist) (n : ℕ), emp.keys = tru.keys →
      compute_xeb emp tru n =
        .ok ((2 ^ n : ℚ) * (∑ k ∈ tru.keys, tru.getv k * emp.getv k) - 1))
    ∧ compute_xeb distOneQubitPoint distOneQubitPoint 1 = .ok 1
    ∧ compute_xeb distTwoQubitPoint00 distTwoQubitUniform 2 = .ok 0 := by
  refine ⟨?_, ?_, ?_⟩
  · intro emp tru n h
    rw [compute_xeb, if_neg (by simp [h])]
    have hs := sum_over_keys (fun k v => v * emp.getv k) tru.entries tru.nodupKeys
    simp only [PDist.keys, PDist.getv] at hs ⊢
    rw [← hs]
  · norm_num [compute_xeb, distOneQubitPoint, PDist.getv, PDist.keys, List.lookup]
  · simp +decide [compute_xeb, distTwoQubitPoint00, distTwoQubitUniform, PDist.getv,
      PDist.keys, List.lookup]
    norm_num

/-- Witness for C1: the general formula applied to the concrete 2-qubit
pair of distributions. -/
theorem compute_xeb_formula_and_examples_witness :
    compute_xeb distTwoQubitPoint00 distTwoQubitUniform 2 =
      .ok ((2 ^ 2 : ℚ) * (∑ k ∈ distTwoQubitUniform.keys,
        distTwoQubitUniform.getv k * distTwoQubitPoint00.getv k) - 1) :=
  compute_xeb_formula_and_examples.1 distTwoQubitPoint00 distTwoQubitUniform 2 (by decide)

/-- C3: `total_variation_distance` and `compute_xeb` raise a `ValueError`
exactly when the key sets of their two input distributions differ, and
return normally when the key sets are identical; in particular comparing
the distributions keyed "00" and "0" raises. -/
theorem metrics_error_iff_key_mismatch :
    (∀ d1 d2 : PDist,
      (d1.keys ≠ d2.keys → total_variation_distance d1 d2 =
        .error "Distributions must have the same basis states.")
      ∧ (d1.keys = d2.keys → ∃ v, total_variation_distance d1 d2 = .ok v))
    ∧ (∀ (d1 d2 : PDist) (n : ℕ),
      (d1.keys ≠ d2.keys → compute_xeb d1 d2 n =
        .error "Distributions must have the same basis states.")
      ∧ (d1.keys = d2.keys → ∃ v, compute_xeb d1 d2 n = .ok v))
    ∧ total_variation_distance distPair00 distSingle0 =
        .error "Distributions must have the same basis states." := by
  refine ⟨fun d1 d2 => ⟨fun h => ?_, fun h => ?_⟩,
    fun d1 d2 n => ⟨fun h => ?_, fun h => ?_⟩, ?_⟩
  · rw [total_variation_distance, if_pos h]
  · exact ⟨_, by rw [total_variation_distance, if_neg (by simp [h])]⟩
  · rw [compute_xeb, if_pos h]
  · exact ⟨_, by rw [compute_xeb, if_neg (by simp [h])]⟩
  · rw [total_variation_distance, if_pos (by decide)]

/-- Witness for C3: a concrete mismatched pair raises from
`total_variation_distance`, and a concrete matched pair returns normally
from `compute_xeb`. -/
theorem metrics_error_iff_key_mismatch_witness :
    (total_variation_distance distSingle0 distPair00 =
      .error "Distributions must have the same basis states.")
    ∧ (∃ v, compute_xeb distEmpty distEmpty 0 = .ok v) :=
  ⟨(metrics_error_iff_key_mismatch.1 distSingle0 distPair00).1 (by decide),
   (metrics_error_iff_key_mismatch.2.1 distEmpty distEmpty 0).2 (by decide)⟩

/-- C10: both metrics accept the empty key set: `total_variation_distance`
of two empty distributions returns 0 without raising, and `compute_xeb` of
two empty distributions returns `2 ^ n * 0 - 1 = -1` without raising for
any qubit count. -/
theorem metrics_on_empty_distributions :
    total_variation_distance distEmpty distEmpty = .ok 0 ∧
    ∀ n : ℕ, compute_xeb distEmpty distEmpty n = .ok ((2 ^ n : ℚ) * 0 - 1) ∧
      compute_xeb distEmpty distEmpty n = .ok (-1) := by
  refine ⟨?_, fun n => ⟨?_, ?_⟩⟩
  · norm_num [total_variation_distance, distEmpty, PDist.keys]
  · norm_num [compute_xeb, distEmpty, PDist.keys]
  · norm_num [compute_xeb, distEmpty, PDist.keys]

/-- C2: for valid probability distributions (non-negative values summing
to 1) with identical key sets, `total_variation_distance` returns half the
sum over all keys of the absolute difference of the two probabilities, and
this value lies in the interval [0, 1]. -/
theorem tvd_formula_and_range :
    ∀ d1 d2 : PDist,
      (∀ p ∈ d1.entries, 0 ≤ p.2) → (∀ p ∈ d2.entries, 0 ≤ p.2) →
      d1.total = 1 → d2.total = 1 → d1.keys = d2.keys →
      ∃ v, total_variation_distance d1 d2 = .ok v ∧
        v = (1 / 2) * (∑ k ∈ d1.keys, |d1.getv k - d2.getv k|) ∧
        0 ≤ v ∧ v ≤ 1 := by
  intro d1 d2 hn1 hn2 ht1 ht2 hk
  refine ⟨_, by rw [total_variation_distance, if_neg (by simp [hk])], rfl, ?_, ?_⟩
  · have : ∀ k ∈ d1.keys, (0:ℚ) ≤ |d1.getv k - d2.getv k| := fun k _ => abs_nonneg _
    have := Finset.sum_nonneg this
    positivity
  · have hbound : ∀ k ∈ d1.keys, |d1.getv k - d2.getv k| ≤ d1.getv k + d2.getv k := by
      intro k _
      have h1 := d1.getv_nonneg hn1 k
      have h2 := d2.getv_nonneg hn2 k
      rw [abs_le]
      constructor <;> linarith
    have hs := Finset.sum_le_sum hbound
    rw [Finset.sum_add_distrib] at hs
    have e1 : ∑ k ∈ d1.keys, d1.getv k = 1 := by rw [← d1.total_eq_sum_keys]; exact ht1
    have e2 : ∑ k ∈ d1.keys, d2.getv k = 1 := by
      rw [hk, ← d2.total_eq_sum_keys]; exact ht2
    rw [e1, e2] at hs
    linarith

/-- Witness for C2: the formula and range bounds applied to a concrete pair
of valid 2-qubit distributions. -/
theorem tvd_formula_and_range_witness :
    ∃ v, total_variation_distance distTwoQubitPoint00 distTwoQubitUniform = .ok v ∧
      v = (1 / 2) * (∑ k ∈ distTwoQubitPoint00.keys,
        |distTwoQubitPoint00.getv k - distTwoQubitUniform.getv k|) ∧
      0 ≤ v ∧ v ≤ 1 :=
  tvd_formula_and_range distTwoQubitPoint00 distTwoQubitUniform
    (by norm_num [distTwoQubitPoint00])
    (by norm_num [distTwoQubitUniform])
    (by norm_num [PDist.total, distTwoQubitPoint00])
    (by norm_num [PDist.total, distTwoQubitUniform])
    (by decide)

/-- C4: `total_variation_distance` is symmetric in its two arguments
whenever their key sets are identical. -/
theorem tvd_symmetric :
    ∀ d1 d2 : PDist, d1.keys = d2.keys →
      total_variation_distance d1 d2 = total_variation_distance d2 d1 := by
  intro d1 d2 h
  rw [total_variation_distance, total_variation_distance,
    if_neg (by simp [h]), if_neg (by simp [h])]
  rw [h]
  exact congrArg _ (congrArg _ (Finset.sum_congr rfl fun k _ => abs_sub_comm _ _))

/-- Witness for C4: symmetry at a concrete pair of 2-qubit distributions. -/
theorem tvd_symmetric_witness :
    total_variation_distance distTwoQubitPoint00 distTwoQubitUniform =
      total_variation_distance distTwoQubitUniform distTwoQubitPoint00 :=
  tvd_symmetric distTwoQubitPoint00 distTwoQubitUniform (by decide)

/-- C5: for distributions with identical key sets,
`total_variation_distance` returns zero exactly when the two distributions
agree entrywise (floating tolerance is exact equality in the rational
model). -/
theorem tvd_zero_iff :
    ∀ d1 d2 : PDist, d1.keys = d2.keys →
      (total_variation_distance d1 d2 = .ok 0 ↔
        ∀ k ∈ d1.keys, d1.getv k = d2.getv k) := by
  intro d1 d2 h
  rw [total_variation_distance, if_neg (by simp [h])]
  constructor
  · intro h0
    have hv : (1 / 2 : ℚ) * (∑ k ∈ d1.keys, |d1.getv k - d2.getv k|) = 0 := by
      simpa using h0
    have hsum : ∑ k ∈ d1.keys, |d1.getv k - d2.getv k| = 0 := by linarith
    intro k hkk
    have := (Finset.sum_eq_zero_iff_of_nonneg (fun i _ => abs_nonneg _)).mp hsum k hkk
    have := abs_eq_zero.mp this
    linarith
  · intro hkk
    have hsum : ∑ k ∈ d1.keys, |d1.getv k - d2.getv k| = 0 :=
      Finset.sum_eq_zero fun k hm => by rw [hkk k hm, sub_self, abs_zero]
    rw [hsum]
    norm_num

/-- Witness for C5: the equivalence applied to a concrete identical pair. -/
theorem tvd_zero_iff_witness :
    total_variation_distance distOneQubitPoint distOneQubitPoint = .ok 0 ↔
      ∀ k ∈ distOneQubitPoint.keys,
        distOneQubitPoint.getv k = distOneQubitPoint.getv k :=
  tvd_zero_iff distOneQubitPoint distOneQubitPoint (by decide)

/-- A distribution summing to `1 + 5e-6`: off by more than `1e-8` but
within numpy's default `isclose` tolerance of 1. -/
def distSlightlyOff : PDist := ⟨[(['0'], 1 + 1 / 200000)], by decide⟩

/-- Counterexample to C6: `check_distribution_normalization` accepts a
distribution whose value sum differs from 1 by `5e-6`, which exceeds the
claimed `1e-8` absolute tolerance, because `np.isclose` defaults add a
relative tolerance of `1e-5`. -/
theorem check_normalization_counterexample :
    (check_distribution_normalization distSlightlyOff).1 = true ∧
      ¬ |distSlightlyOff.total - 1| ≤ 1 / 100000000 := by
  have htot : distSlightlyOff.total = 1 + 1 / 200000 := by
    norm_num [PDist.total, distSlightlyOff]
  have habs : |distSlightlyOff.total - 1| = 1 / 200000 := by
    rw [htot, show (1:ℚ) + 1 / 200000 - 1 = 1 / 200000 by ring]
    exact abs_of_pos (by norm_num)
  have hcond : npIsclose distSlightlyOff.total 1 = true := by
    simp only [npIsclose, decide_eq_true_eq, habs, abs_one]
    norm_num
  constructor
  · rw [check_distribution_normalization]
    simp [hcond]
  · rw [habs]
    norm_num

/-- C6 amended: `check_distribution_normalization` returns true exactly
when the sum of the values is within `1e-8 + 1e-5 * |1.0|` of 1.0 (numpy's
default `isclose` tolerances); otherwise it prints a diagnostic warning and
returns false. It never raises and, being a pure function of its argument,
never mutates it. -/
theorem check_normalization_amended :
    ∀ d : PDist,
      ((check_distribution_normalization d).1 = true ↔
        |d.total - 1| ≤ 1 / 100000000 + 1 / 100000) ∧
      ((check_distribution_normalization d).1 = false ↔
        (check_distribution_normalization d).2 ≠ []) := by
  intro d
  have hiff : npIsclose d.total 1 = true ↔
      |d.total - 1| ≤ 1 / 100000000 + 1 / 100000 := by
    rw [npIsclose]
    norm_num
  rcases hb : npIsclose d.total 1 with _ | _
  · rw [check_distribution_normalization]
    simp only [hb, Bool.false_eq_true, if_false]
    constructor
    · simp only [Bool.false_eq_true, false_iff]
      intro hcl
      rw [← hiff] at hcl
      simp [hb] at hcl
    · simp
  · rw [check_distribution_normalization]
    simp only [hb, if_true]
    constructor
    · simp only [true_iff]
      exact hiff.mp hb
    · simp

/-- A 0-qubit circuit: one basis state of probability 1. -/
def circuit0 : Circuit where
  num_qubits := 0
  measured := []
  svprobs := fun _ => 1
  svprobs_nonneg := fun _ => by norm_num
  svprobs_sum_one := by simp

/-- Counterexample to C7: for a 0-qubit circuit the single key produced by
`calculate_true_distribution` is the 1-character string "0" (Python
`format(0, '00b')` never yields an empty string), so the keys are not
n-character bitstrings when n = 0. -/
theorem true_distribution_zero_qubit_counterexample :
    ((calculate_true_distribution circuit0).2.entries.map Prod.fst) = [['0']] ∧
      ¬ (∀ k ∈ (calculate_true_distribution circuit0).2.keys,
          k.length = circuit0.num_qubits) := by
  constructor
  · rfl
  · decide

/-- C7 amended: for every circuit with at least one qubit,
`calculate_true_distribution` returns a mapping with exactly `2 ^ n`
entries whose keys are the distinct n-character bitstrings of the integers
`0 .. 2 ^ n - 1` in standard binary counting order (zero-padded), with
values summing to 1. -/
theorem true_distribution_amended :
    ∀ qc : Circuit, 1 ≤ qc.num_qubits →
      (calculate_true_distribution qc).2.entries.length = 2 ^ qc.num_qubits ∧
      (calculate_true_distribution qc).2.entries.map Prod.fst =
        (List.range (2 ^ qc.num_qubits)).map (toBin qc.num_qubits) ∧
      ((calculate_true_distribution qc).2.entries.map Prod.fst).Nodup ∧
      (∀ k ∈ (calculate_true_distribution qc).2.keys, k.length = qc.num_qubits) ∧
      (calculate_true_distribution qc).2.total = 1 := by
  intro qc hn
  have hkeys : (calculate_true_distribution qc).2.entries.map Prod.fst =
      (List.range (2 ^ qc.num_qubits)).map (pyFormatBin qc.num_qubits) := by
    show (trueEntries (remove_final_measurements qc)).map Prod.fst = _
    rw [trueEntries, List.map_map, ← List.map_coe_finRange, List.map_map]
    rfl
  have hkeys2 : (List.range (2 ^ qc.num_qubits)).map (pyFormatBin qc.num_qubits) =
      (List.range (2 ^ qc.num_qubits)).map (toBin qc.num_qubits) :=
    List.map_congr_left fun i hi =>
      pyFormatBin_eq_toBin qc.num_qubits i hn (List.mem_range.mp hi)
  refine ⟨?_, hkeys.trans hkeys2, trueEntries_keys_nodup _, ?_, ?_⟩
  · show (trueEntries (remove_final_measurements qc)).length = _
    rw [trueEntries, List.length_map, List.length_finRange]
    rfl
  · intro k hk
    rw [PDist.keys, List.mem_toFinset, hkeys, hkeys2] at hk
    obtain ⟨i, _, rfl⟩ := List.mem_map.mp hk
    exact toBin_length qc.num_qubits i
  · have hsnd : (calculate_true_distribution qc).2.entries.map Prod.snd =
        (List.finRange (2 ^ qc.num_qubits)).map (remove_final_measurements qc).svprobs := by
      show (trueEntries (remove_final_measurements qc)).map Prod.snd = _
      rw [trueEntries, List.map_map]
      rfl
    rw [PDist.total, hsnd]
    exact (Fin.sum_univ_def (remove_final_measurements qc).svprobs).symm.trans
      (remove_final_measurements qc).svprobs_sum_one

/-- A 1-qubit circuit with the uniform statevector distribution. -/
def circuit1 : Circuit where
  num_qubits := 1
  measured := [0]
  svprobs := fun _ => 1 / 2
  svprobs_nonneg := fun _ => by norm_num
  svprobs_sum_one := by
    show ∑ _i : Fin 2, (1 / 2 : ℚ) = 1
    rw [Fin.sum_univ_two]
    norm_num

/-- Witness for the amended C7: the amended statement applied to a concrete
1-qubit circuit. -/
theorem true_distribution_amended_witness :
    (calculate_true_distribution circuit1).2.entries.length = 2 ^ circuit1.num_qubits ∧
      (calculate_true_distribution circuit1).2.entries.map Prod.fst =
        (List.range (2 ^ circuit1.num_qubits)).map (toBin circuit1.num_qubits) ∧
      ((calculate_true_distribution circuit1).2.entries.map Prod.fst).Nodup ∧
      (∀ k ∈ (calculate_true_distribution circuit1).2.keys,
        k.length = circuit1.num_qubits) ∧
      (calculate_true_distribution circuit1).2.total = 1 :=
  true_distribution_amended circuit1 (by decide)

/-- C8: `calculate_true_distribution` strips the final measurements from
the caller-visible circuit (modelled by the circuit it returns), and a
second call on the already-stripped circuit strips nothing further and
returns the same distribution. -/
theorem ctd_strips_measurements_and_idempotent :
    ∀ qc : Circuit,
      ((calculate_true_distribution qc).1).measured = [] ∧
      calculate_true_distribution ((calculate_true_distribution qc).1) =
        calculate_true_distribution qc :=
  fun _ => ⟨rfl, rfl⟩

/-- C9: the result of `xeb_truedist_empdist_ideal` is independent of the
caller-supplied noise rate; with the external collaborators held fixed, any
two rates give identical behavior, since the noise model is always built
with rate 0. -/
theorem ideal_driver_ignores_noise_rate :
    ∀ (NM : Type) (env : Env NM) (num_qubits : ℕ) (rate1 rate2 : ℚ)
      (shots : ℕ) (depth : Option ℕ),
      xeb_truedist_empdist_ideal env num_qubits rate1 shots depth =
        xeb_truedist_empdist_ideal env num_qubits rate2 shots depth :=
  fun _ _ _ _ _ _ _ => rfl
